import Mathlib

/-!
Verification of the citation-to-text matching and highlighting engine of the
ai_docchat frontend.  The JavaScript source is shallowly embedded: JS strings
become `List Char`, the regex-based normalizers become structural functions on
character lists, and the DOM state touched by the engine (page hosts, text
layers, text spans and their highlight attributes) becomes an explicit
`PageState`.  All definitions are translated from the source files
`src/unnamed/part_000` (the PdfPane with the full-document quote search) and
`src/src/components/ChatPane.jsx`.
-/

namespace DocChat

/-- JS strings are modelled as lists of characters. -/
abbrev Str := List Char

/-- The whitespace class used by the source's regexes (`\s`) and by
`String.prototype.trim`: space, tab, line feed, carriage return, vertical tab,
form feed and no-break space (the ASCII/Latin-1 part of the JS class). -/
def isJsSpace (c : Char) : Bool :=
  c.toNat = 32 || c.toNat = 9 || c.toNat = 10 || c.toNat = 13 ||
  c.toNat = 11 || c.toNat = 12 || c.toNat = 160

/-- The word class of the source's regexes (`\w`): letters, digits, underscore. -/
def isWordChar (c : Char) : Bool :=
  (97 ≤ c.toNat && c.toNat ≤ 122) || (65 ≤ c.toNat && c.toNat ≤ 90) ||
  (48 ≤ c.toNat && c.toNat ≤ 57) || c.toNat = 95

/-- A character is kept by the `[^\w\s]` regexes when it is a word or space
character. -/
def keepChar (c : Char) : Bool := isWordChar c || isJsSpace c

/-- Models `String.prototype.toLowerCase` on the ASCII range: uppercase letters are
shifted down by 32, all other characters are unchanged. -/
def jsLower (c : Char) : Char :=
  if 65 ≤ c.toNat ∧ c.toNat ≤ 90 then Char.ofNat (c.toNat + 32) else c

/-- Models `s.toLowerCase()` character by character. -/
def lowerStr (s : Str) : Str := s.map jsLower

/-- One step of `replace(/\s+/g, " ")`: the flag records whether the previous
character belonged to a whitespace run (in which case further whitespace is
dropped rather than emitted). -/
def collapseGo : Bool → Str → Str
  | _, [] => []
  | prevSp, c :: cs =>
    if isJsSpace c then
      if prevSp then collapseGo true cs else ' ' :: collapseGo true cs
    else c :: collapseGo false cs

/-- Models `replace(/\s+/g, " ")`: every maximal run of whitespace becomes one space. -/
def collapseWs (s : Str) : Str := collapseGo false s

/-- The trailing-whitespace half of `String.prototype.trim`. -/
def trimRight : Str → Str
  | [] => []
  | c :: cs =>
    match trimRight cs with
    | [] => if isJsSpace c then [] else [c]
    | r :: rs => c :: r :: rs

/-- Models `String.prototype.trim`: drop leading and trailing whitespace. -/
def jsTrim (s : Str) : Str := trimRight (s.dropWhile isJsSpace)

/-- Models `replace(/[^\w\s]/g, ' ')`: every non-word non-space character becomes a
space (used by `normalizeText` in part_000). -/
def punctToSpace (s : Str) : Str := s.map (fun c => if keepChar c then c else ' ')

/-- Models `replace(/[^\w\s]/g, "")`: every non-word non-space character is deleted
(used by `normalize` in ChatPane.jsx). -/
def punctDrop (s : Str) : Str := s.filter keepChar

/-- Models `Array.prototype.join(" ")` on a list of strings. -/
def joinSp : List Str → Str
  | [] => []
  | [x] => x
  | x :: y :: rest => x ++ ' ' :: joinSp (y :: rest)

/-- Whether `needle` occurs at the start of `hay`. -/
def isPrefOf : Str → Str → Bool
  | [], _ => true
  | _ :: _, [] => false
  | a :: as, b :: bs => if a = b then isPrefOf as bs else false

/-- Models `String.prototype.indexOf`: index of the first occurrence of `needle` in
`hay`, `none` when absent (JS returns `-1`); the empty needle matches at 0. -/
def idxOf : Str → Str → Option Nat
  | hay, [] => if isPrefOf [] hay then some 0 else none
  | [], _ :: _ => none
  | c :: t, needle =>
    if isPrefOf needle (c :: t) then some 0
    else (idxOf t needle).map (fun n => n + 1)

/-- Models `String.prototype.includes`. -/
def containsStr (hay needle : Str) : Bool := (idxOf hay needle).isSome

/-- Source part_000 line 204:
`const norm = (s) => (s || "").replace(/\s+/g, " ").trim().toLowerCase();`
(on an already present string; the `(s || "")` guard is `normOpt` below). -/
def norm (s : Str) : Str := lowerStr (jsTrim (collapseWs s))

/-- Source part_000 line 237:
`const normalizeText = (text) => text.toLowerCase().replace(/\s+/g, ' ').replace(/[^\w\s]/g, ' ').trim();` -/
def normalizeText (s : Str) : Str := jsTrim (punctToSpace (collapseWs (lowerStr s)))

/-- Source ChatPane.jsx lines 19-20 (source name `normalize`):
`const normalize = (s) => (s || "").toLowerCase().replace(/[^\w\s]/g, "").replace(/\s+/g, " ").trim();`
(on an already present string; the `(s || "")` guard is `normalizeOpt` below). -/
def normalizeChat (s : Str) : Str := jsTrim (collapseWs (punctDrop (lowerStr s)))

/-- The function `norm` as called on a possibly `undefined`/`null` argument: the
`(s || "")` guard turns a missing string into the empty string. -/
def normOpt (s : Option Str) : Str := norm (s.getD [])

/-- ChatPane's `normalize` on a possibly missing argument, with its
`(s || "")` guard. -/
def normalizeOpt (s : Option Str) : Str := normalizeChat (s.getD [])

/-- The function `normalizeText` as called on a possibly missing argument: the source has
no guard and calls `.toLowerCase()` directly on the argument, so a
`null`/`undefined` argument raises a `TypeError`; the raised error is modelled
as `none`. -/
def normalizeTextOpt (s : Option Str) : Option Str := s.map normalizeText

/-- One text span of a page's text layer: its `textContent` and whether it
currently carries the `data-pdf-highlight` attribute. -/
structure Frag where
  text : Str
  hl : Bool
deriving DecidableEq

/-- The DOM state of one page as seen by the engine: the page host element may
be absent (`noHost`, the `pageRefs.current.get(p)` lookup fails), the host may
lack a `.react-pdf__Page__textContent` layer (`noLayer`), or the text layer
exists with its list of spans. -/
inductive PageState where
  | noHost : PageState
  | noLayer : PageState
  | layer : List Frag → PageState
deriving DecidableEq

/-- The three prefix lengths tried by the ratio loop in part_000's
`highlightQuote` (`const searchLengths = [1.0, 0.75, 0.5]`). -/
inductive RatioTier where
  | full : RatioTier
  | r75 : RatioTier
  | r50 : RatioTier
deriving DecidableEq

/-- Models `Math.floor(searchQuery.length * ratio)`; the factors 0.75 and 0.5 are
exact in binary floating point, so the JS expression equals Nat division. -/
def tierLen : RatioTier → Nat → Nat
  | .full, n => n
  | .r75, n => n * 3 / 4
  | .r50, n => n / 2

/-- Removing the `data-pdf-highlight` attribute from a span
(`el.style.backgroundColor = ''; el.removeAttribute('data-pdf-highlight')`). -/
def clearFrag (f : Frag) : Frag := { f with hl := false }

/-- The span-marking loop of part_000's `highlightQuote` (lines 283-306):
walking the spans with a running offset `pos` that grows by
`span.normalized.length + 1` per span, a span is marked exactly when
`spanStart < matchEnd && spanEnd > matchIndex`. -/
def markRowGo : List Str → Nat → Nat → Nat → List Bool
  | [], _, _, _ => []
  | n :: rest, pos, mi, me =>
    decide (pos < me ∧ mi < pos + n.length + 1) :: markRowGo rest (pos + n.length + 1) mi me

/-- The marking loop started at offset 0. -/
def markRow (norms : List Str) (mi me : Nat) : List Bool := markRowGo norms 0 mi me

/-- Cumulative character offset of fragment `i` in the concatenated page text:
every earlier fragment contributes `length + 1` (the `+1` is the join space). -/
def spanStart : List Str → Nat → Nat
  | _, 0 => 0
  | [], _ + 1 => 0
  | n :: rest, i + 1 => n.length + 1 + spanStart rest i

/-- The ratio loop of part_000's `highlightQuote` (lines 269-311): try the
100%, 75% and 50% prefixes of the normalized quote against the combined
normalized text; the first `indexOf` hit wins. -/
def tierPick (cn sq : Str) : Option (RatioTier × Nat) :=
  match idxOf cn (sq.take (tierLen .full sq.length)) with
  | some i => some (.full, i)
  | none =>
    match idxOf cn (sq.take (tierLen .r75 sq.length)) with
    | some i => some (.r75, i)
    | none => (idxOf cn (sq.take (tierLen .r50 sq.length))).map (fun i => (.r50, i))

/-- Setting the `data-pdf-highlight` attribute on the spans selected by the
marking loop. -/
def applyMarks : List Frag → List Bool → List Frag
  | [], _ => []
  | f :: fs, [] => f :: fs
  | f :: fs, b :: bs => (if b then { f with hl := true } else f) :: applyMarks fs bs

/-- The text-dependent part of part_000's `highlightQuote` (lines 228-324):
from the span texts and the quote it computes the marks row and the ratio tier
at which the loop's `found` became true (`none` when the span list was empty,
the gate rejected, or no ratio hit; the marks are then all false).  The
DOM-independent order of the source is preserved: empty span list check, the
15-character gate over the join of per-span normalized texts, then the ratio
loop over the normalization of the joined raw texts. -/
def hqMarks (texts : List Str) (quote : Str) : List Bool × Option RatioTier :=
  if texts.isEmpty then ([], none)
  else
    let norms := texts.map normalizeText
    let fullPageText := joinSp norms
    let searchQuery := normalizeText quote
    if containsStr fullPageText (searchQuery.take (min 15 searchQuery.length)) = false then
      (texts.map (fun _ => false), none)
    else
      let combinedNormalized := normalizeText (joinSp texts)
      match tierPick combinedNormalized searchQuery with
      | none => (texts.map (fun _ => false), none)
      | some (tier, mi) =>
        let me := mi + (searchQuery.take (tierLen tier searchQuery.length)).length
        (markRow norms mi me, some tier)

/-- Marks, success flag and tier of a `highlightQuote` call on the span texts.
The source returns `highlightedSpans > 0`, i.e. success holds exactly when at
least one span was marked; in every non-`found` path no span is marked, so the
success flag is `marks.any` across all branches. -/
def highlightQuoteCore (texts : List Str) (quote : Str) : List Bool × Bool × Option RatioTier :=
  ((hqMarks texts quote).1, (hqMarks texts quote).1.any (fun b => b), (hqMarks texts quote).2)

/-- part_000's `highlightQuote(p, quote)` (lines 205-325) on the state of page
`p`: missing host or text layer return `false` unchanged; otherwise all
existing `data-pdf-highlight` marks on this page are cleared and the marks
computed by `highlightQuoteCore` are applied. -/
def highlightQuote (st : PageState) (quote : Str) : PageState × Bool × Option RatioTier :=
  match st with
  | .noHost => (.noHost, false, none)
  | .noLayer => (.noLayer, false, none)
  | .layer spans =>
    let r := highlightQuoteCore (spans.map Frag.text) quote
    (.layer (applyMarks (spans.map clearFrag) r.1), r.2.1, r.2.2)

/-- Whether a page state has a host element (`pageRefs.current.get(p)`
succeeds). -/
def hostTag : PageState → Bool
  | .noHost => false
  | .noLayer => true
  | .layer _ => true

/-- The page list is indexed by page number starting at 1. -/
def pageAt (doc : List PageState) (p : Nat) : PageState := doc.getD (p - 1) .noHost

/-- Whether `pageRefs.current.get(p)` succeeds on page `p` of the document. -/
def hostAt (doc : List PageState) (p : Nat) : Bool := (doc.map hostTag).getD (p - 1) false

/-- The observable outcome of a `jumpTo` call: the quote-less early return,
a first page on which `highlightQuote` succeeded, or the `Quote not found on
any page` fallback. -/
inductive Outcome where
  | navOnly : Outcome
  | found : Nat → Outcome
  | notFound : Outcome
deriving DecidableEq

/-- Result of a `jumpTo` call: the document state after the call, the page
scrolled into view (if any) and the outcome. -/
structure JumpOut where
  doc : List PageState
  scroll : Option Nat
  outcome : Outcome
deriving DecidableEq

/-- The page loop of part_000's `jumpTo` (lines 141-165): pages are visited in
ascending order; a missing host is skipped (`highlightQuote` leaves it
unchanged and fails); the loop `break`s at the first page on which
`highlightQuote` succeeds, leaving all later pages untouched. -/
def jumpToGo : List PageState → Str → Nat → List PageState × Option Nat
  | [], _, _ => ([], none)
  | st :: rest, q, pg =>
    let out := highlightQuote st q
    if out.2.1 then (out.1 :: rest, some pg)
    else
      let pr := jumpToGo rest q (pg + 1)
      (out.1 :: pr.1, pr.2)

/-- The first page (ascending from 1) on which `highlightQuote` succeeds. -/
def firstMatchGo : List PageState → Str → Nat → Option Nat
  | [], _, _ => none
  | st :: rest, q, pg =>
    if (highlightQuote st q).2.1 then some pg else firstMatchGo rest q (pg + 1)

/-- The first matching page of a document, counting from page 1. -/
def firstMatch (doc : List PageState) (q : Str) : Option Nat := firstMatchGo doc q 1

/-- part_000's `jumpTo({page: target, quote, searchPages})` (lines 126-175).
A falsy quote (`undefined` or the empty string) scrolls to page 1 and returns;
otherwise every page is searched in ascending order ignoring `target`; on the
first success that page is scrolled into view; if no page matches, page 1 is
scrolled into view.  `target` and `searchPages` are never read in the search
path. -/
def jumpTo (doc : List PageState) (target : Option Nat) (quote : Option Str) : JumpOut :=
  match quote with
  | none => ⟨doc, if hostAt doc 1 then some 1 else none, .navOnly⟩
  | some [] => ⟨doc, if hostAt doc 1 then some 1 else none, .navOnly⟩
  | some (c :: cs) =>
    let r := jumpToGo doc (c :: cs) 1
    match r.2 with
    | some p => ⟨r.1, some p, .found p⟩
    | none => ⟨r.1, if hostAt r.1 1 then some 1 else none, .notFound⟩

/-- No span of the page carries the highlight attribute. -/
def pageClean : PageState → Bool
  | .noHost => true
  | .noLayer => true
  | .layer spans => spans.all (fun f => !f.hl)

/-- No span of any page of the document carries the highlight attribute. -/
def docClean (doc : List PageState) : Bool := doc.all pageClean

/-- The `extractText` closure of `onPageRender` (part_000 lines 100-112): join the span
texts with spaces; succeed only when the trimmed join is non-empty. -/
def tryExtract : PageState → Option Str
  | .noHost => none
  | .noLayer => none
  | .layer spans =>
    let text := joinSp (spans.map Frag.text)
    if 0 < (jsTrim text).length then some text else none

/-- The outcome of one `onPageRender` for a page: the cache entry afterwards
and how many extraction attempts ran. -/
structure ExtractOut where
  cache : Option Str
  attempts : Nat
deriving DecidableEq

/-- The retry logic of `onPageRender` (part_000 lines 114-122): try once
immediately on the page state `st0`; on failure try exactly once more after
the fixed 100 ms delay, on the page state `st1` at that time; a second failure
leaves the cache entry unchanged. -/
def onPageRender (st0 st1 : PageState) (prior : Option Str) : ExtractOut :=
  match tryExtract st0 with
  | some t => ⟨some t, 1⟩
  | none =>
    match tryExtract st1 with
    | some t => ⟨some t, 2⟩
    | none => ⟨prior, 2⟩

/-- Models `getPageTexts()` (part_000 lines 176-186): one entry per page 1..numPages,
with the empty string for pages absent from the cache. -/
def getPageTexts (numPages : Nat) (cache : Nat → Option Str) : List (Nat × Str) :=
  (List.range numPages).map (fun i => (i + 1, (cache (i + 1)).getD []))

/-- The test `!quote` in `jumpTo`: a quote is falsy when it is `undefined` or the empty
string. -/
def isFalsyQuote : Option Str → Bool
  | none => true
  | some [] => true
  | some (_ :: _) => false

/-- Adjacent characters are not both whitespace (the shape of a string in
which `replace(/\s+/g, " ")` finds nothing to do). -/
def SpRel (a b : Char) : Prop := ¬(isJsSpace a = true ∧ isJsSpace b = true)

/-! ### Concrete documents and quotes used in witnesses and counterexamples -/

/-- Page with text unrelated to the test quote. -/
def pageA : PageState := .layer [⟨"quick brown fox".toList, false⟩]

/-- Page containing the test quote, no highlight. -/
def pageB : PageState := .layer [⟨"the contract term is final".toList, false⟩]

/-- Page containing the test quote whose span already carries a highlight. -/
def pageBHl : PageState := .layer [⟨"the contract term is final".toList, true⟩]

/-- A five-page document: quote matches on pages 2 and 5, page 3 has no host,
page 4 has no text layer, and page 5 carries a stale highlight. -/
def exDoc : List PageState := [pageA, pageB, .noHost, .noLayer, pageBHl]

/-- Test quote present on pages 2 and 5 of `exDoc`. -/
def exQuote : Str := "contract term".toList

/-- Quote matching no page of `exDoc`. -/
def exMissQuote : Str := "nonexistent clause xyz123".toList

/-- Span texts whose per-span normalization joined with spaces (`a bcd`)
differs from the normalization of the joined raw texts (`a  bcd`). -/
def gateTexts : List Str := ["a.".toList, "bcd".toList]

/-- Quote whose normalized form is `a bcd`: the gate passes on `gateTexts`
and the ratio loop hits only at the 50% tier. -/
def ratioQuote : Str := "a bcd".toList

/-- Quote normalizing to `a  bcd efg`: its 50% prefix occurs in the combined
normalized text of `gateTexts`, but the 15-character gate rejects the page. -/
def mismatchQuote : Str := "a. bcd efg".toList

/-- One-span page text for the C7 counterexample. -/
def longTexts : List Str := ["abcdefghij".toList]

/-- Quote (21 normalized characters) whose 50% prefix equals the whole page
text of `longTexts` while its 15-character gate prefix does not occur there. -/
def longQuote : Str := "abcdefghij klmnopqrst".toList

/-- A page whose single span holds only a space: extraction never succeeds. -/
def blankPage : PageState := .layer [⟨[' '], false⟩]

section Lemmas

/-! ### Character-level lemmas -/

theorem toNat_ofNat_valid (n : Nat) (h : n < 55296) : (Char.ofNat n).toNat = n := by
  unfold Char.ofNat
  rw [dif_pos (Or.inl h)]
  rfl

theorem char_toNat_inj {c d : Char} (h : c.toNat = d.toNat) : c = d := by
  have h2 := congrArg Char.ofNat h
  rwa [Char.ofNat_toNat, Char.ofNat_toNat] at h2

theorem jsLower_toNat (c : Char) :
    (jsLower c).toNat = if 65 ≤ c.toNat ∧ c.toNat ≤ 90 then c.toNat + 32 else c.toNat := by
  unfold jsLower
  split
  · exact toNat_ofNat_valid _ (by omega)
  · rfl

theorem jsLower_idem (c : Char) : jsLower (jsLower c) = jsLower c := by
  apply char_toNat_inj
  rw [jsLower_toNat (jsLower c), jsLower_toNat c]
  by_cases h : 65 ≤ c.toNat ∧ c.toNat ≤ 90
  · simp only [if_pos h]
    rw [if_neg (by omega)]
  · simp only [if_neg h]

theorem isJsSpace_iff (c : Char) :
    isJsSpace c = true ↔ (c.toNat = 32 ∨ c.toNat = 9 ∨ c.toNat = 10 ∨ c.toNat = 13 ∨
      c.toNat = 11 ∨ c.toNat = 12 ∨ c.toNat = 160) := by
  simp only [isJsSpace, Bool.or_eq_true, decide_eq_true_eq]
  tauto

theorem isWordChar_iff (c : Char) :
    isWordChar c = true ↔ ((97 ≤ c.toNat ∧ c.toNat ≤ 122) ∨ (65 ≤ c.toNat ∧ c.toNat ≤ 90) ∨
      (48 ≤ c.toNat ∧ c.toNat ≤ 57) ∨ c.toNat = 95) := by
  simp only [isWordChar, Bool.or_eq_true, Bool.and_eq_true, decide_eq_true_eq]
  tauto

theorem isJsSpace_jsLower (c : Char) : isJsSpace (jsLower c) = isJsSpace c := by
  rw [Bool.eq_iff_iff, isJsSpace_iff, isJsSpace_iff, jsLower_toNat]
  split <;> omega

theorem keepChar_jsLower (c : Char) : keepChar (jsLower c) = keepChar c := by
  unfold keepChar
  rw [Bool.eq_iff_iff]
  simp only [Bool.or_eq_true, isJsSpace_iff, isWordChar_iff, jsLower_toNat]
  split <;> omega

theorem jsLower_space : jsLower ' ' = ' ' := by decide

theorem keepChar_space : keepChar ' ' = true := by decide

/-! ### Whitespace collapsing -/

theorem collapseGo_spaces (l : Str) :
    ∀ b, ∀ x ∈ collapseGo b l, isJsSpace x = true → x = ' ' := by
  induction l with
  | nil => intro b x hx; simp [collapseGo] at hx
  | cons c cs ih =>
    intro b x hx hsp
    by_cases h : isJsSpace c
    · rw [collapseGo, if_pos h] at hx
      cases b with
      | true => exact ih true x hx hsp
      | false =>
        rcases List.mem_cons.1 hx with rfl | hx'
        · rfl
        · exact ih true x hx' hsp
    · rw [collapseGo, if_neg h] at hx
      rcases List.mem_cons.1 hx with rfl | hx'
      · exact absurd hsp (by simp [h])
      · exact ih false x hx' hsp

theorem collapseGo_head_true (l : Str) :
    ∀ c, (collapseGo true l).head? = some c → isJsSpace c = false := by
  induction l with
  | nil => intro c h; simp [collapseGo] at h
  | cons a cs ih =>
    intro c h
    by_cases ha : isJsSpace a
    · rw [collapseGo, if_pos ha] at h
      exact ih c h
    · rw [collapseGo, if_neg ha] at h
      simp only [List.head?_cons, Option.some.injEq] at h
      rw [← h]
      simp [ha]

theorem collapseGo_chain (l : Str) : ∀ b, List.Chain' SpRel (collapseGo b l) := by
  induction l with
  | nil => intro b; simp [collapseGo]
  | cons c cs ih =>
    intro b
    by_cases h : isJsSpace c
    · rw [collapseGo, if_pos h]
      cases b with
      | true => exact ih true
      | false =>
        show List.Chain' SpRel (' ' :: collapseGo true cs)
        rw [List.chain'_cons']
        refine ⟨fun y hy => ?_, ih true⟩
        have := collapseGo_head_true cs y hy
        exact fun hcon => by simp [this] at hcon
    · rw [collapseGo, if_neg h]
      rw [List.chain'_cons']
      exact ⟨fun y _ => fun hcon => by simp [h] at hcon, ih false⟩

theorem collapseGo_fix (l : Str) (hmem : ∀ x ∈ l, isJsSpace x = true → x = ' ')
    (hch : List.Chain' SpRel l) :
    ∀ b, (b = true → ∀ c, l.head? = some c → isJsSpace c = false) → collapseGo b l = l := by
  induction l with
  | nil => intro b _; simp [collapseGo]
  | cons c cs ih =>
    intro b hb
    rcases List.chain'_cons'.1 hch with ⟨hhd, hch'⟩
    have hmem' : ∀ x ∈ cs, isJsSpace x = true → x = ' ' :=
      fun x hx => hmem x (List.mem_cons_of_mem c hx)
    by_cases h : isJsSpace c
    · cases b with
      | true => exact absurd h (by simp [hb rfl c rfl])
      | false =>
        rw [collapseGo, if_pos h]
        have hc : c = ' ' := hmem c (List.mem_cons_self c cs) h
        have htl : collapseGo true cs = cs := by
          refine ih hmem' hch' true (fun _ d hd => ?_)
          have := hhd d hd
          unfold SpRel at this
          by_contra hcon
          exact this ⟨h, by simpa using hcon⟩
        show (' ' :: collapseGo true cs) = c :: cs
        rw [htl, hc]
    · rw [collapseGo, if_neg h]
      rw [ih hmem' hch' false (by simp)]

theorem collapseWs_idem (l : Str) : collapseWs (collapseWs l) = collapseWs l :=
  collapseGo_fix _ (collapseGo_spaces l false) (collapseGo_chain l false) false (by simp)

theorem mem_collapseGo (l : Str) : ∀ b, ∀ x ∈ collapseGo b l, x ∈ l ∨ x = ' ' := by
  induction l with
  | nil => intro b x hx; simp [collapseGo] at hx
  | cons c cs ih =>
    intro b x hx
    by_cases h : isJsSpace c
    · rw [collapseGo, if_pos h] at hx
      cases b with
      | true =>
        rcases ih true x hx with h' | h'
        · exact Or.inl (List.mem_cons_of_mem c h')
        · exact Or.inr h'
      | false =>
        rcases List.mem_cons.1 hx with rfl | hx'
        · exact Or.inr rfl
        · rcases ih true x hx' with h' | h'
          · exact Or.inl (List.mem_cons_of_mem c h')
          · exact Or.inr h'
    · rw [collapseGo, if_neg h] at hx
      rcases List.mem_cons.1 hx with rfl | hx'
      · exact Or.inl (List.mem_cons_self _ _)
      · rcases ih false x hx' with h' | h'
        · exact Or.inl (List.mem_cons_of_mem c h')
        · exact Or.inr h'

theorem collapseGo_lower (l : Str) : ∀ b, collapseGo b (lowerStr l) = lowerStr (collapseGo b l) := by
  induction l with
  | nil => intro b; simp [collapseGo, lowerStr]
  | cons c cs ih =>
    intro b
    show collapseGo b (jsLower c :: lowerStr cs) = lowerStr (collapseGo b (c :: cs))
    by_cases h : isJsSpace c
    · rw [collapseGo, if_pos (by rw [isJsSpace_jsLower]; exact h), collapseGo, if_pos h]
      cases b with
      | true => exact ih true
      | false =>
        show ' ' :: collapseGo true (lowerStr cs) = lowerStr (' ' :: collapseGo true cs)
        rw [ih true]
        show _ = jsLower ' ' :: lowerStr (collapseGo true cs)
        rw [jsLower_space]
    · rw [collapseGo, if_neg (by rw [isJsSpace_jsLower]; exact h), collapseGo, if_neg h]
      rw [ih false]
      rfl

theorem collapseGo_true_eq_nil_iff (l : Str) :
    collapseGo true l = [] ↔ ∀ x ∈ l, isJsSpace x = true := by
  induction l with
  | nil => simp [collapseGo]
  | cons c cs ih =>
    constructor
    · intro h
      by_cases hc : isJsSpace c
      · rw [collapseGo, if_pos hc] at h
        intro x hx
        rcases List.mem_cons.1 hx with rfl | hx'
        · exact hc
        · exact ih.1 h x hx'
      · rw [collapseGo, if_neg hc] at h
        exact absurd h (by simp)
    · intro h
      have hc : isJsSpace c = true := h c (List.mem_cons_self c cs)
      rw [collapseGo, if_pos hc]
      exact ih.2 (fun x hx => h x (List.mem_cons_of_mem c hx))

theorem collapseGo_false_ne_nil (c : Char) (cs : Str) : collapseGo false (c :: cs) ≠ [] := by
  by_cases h : isJsSpace c
  · rw [collapseGo, if_pos h]; simp
  · rw [collapseGo, if_neg h]; simp

/-! ### Trimming -/

theorem trimRight_nil_iff (l : Str) : trimRight l = [] ↔ ∀ c ∈ l, isJsSpace c = true := by
  induction l with
  | nil => simp [trimRight]
  | cons c cs ih =>
    rw [trimRight]
    constructor
    · intro h
      rcases htr : trimRight cs with _ | ⟨r, rs⟩
      · rw [htr] at h
        intro x hx
        rcases List.mem_cons.1 hx with rfl | hx'
        · by_contra hc
          rw [if_neg (by simpa using hc)] at h
          simp at h
        · exact ih.1 htr x hx'
      · rw [htr] at h
        simp at h
    · intro h
      rw [ih.2 (fun x hx => h x (List.mem_cons_of_mem c hx))]
      rw [if_pos (h c (List.mem_cons_self _ _))]

theorem trimRight_head? (l : Str) :
    ∀ c, (trimRight l).head? = some c → l.head? = some c := by
  induction l with
  | nil => intro c h; simp [trimRight] at h
  | cons a cs _ =>
    intro c h
    rw [trimRight] at h
    rcases htr : trimRight cs with _ | ⟨r, rs⟩
    · rw [htr] at h
      by_cases ha : isJsSpace a
      · rw [if_pos ha] at h; simp at h
      · rw [if_neg ha] at h
        simp only [List.head?_cons, Option.some.injEq] at h ⊢
        exact h
    · rw [htr] at h
      simp only [List.head?_cons, Option.some.injEq] at h ⊢
      exact h

theorem mem_trimRight (l : Str) : ∀ x ∈ trimRight l, x ∈ l := by
  induction l with
  | nil => simp [trimRight]
  | cons a cs ih =>
    intro x hx
    rw [trimRight] at hx
    rcases htr : trimRight cs with _ | ⟨r, rs⟩
    · rw [htr] at hx
      by_cases ha : isJsSpace a
      · rw [if_pos ha] at hx; simp at hx
      · rw [if_neg ha] at hx
        rcases List.mem_cons.1 hx with rfl | hx'
        · exact List.mem_cons_self _ _
        · simp at hx'
    · rw [htr] at hx
      rcases List.mem_cons.1 hx with rfl | hx'
      · exact List.mem_cons_self _ _
      · exact List.mem_cons_of_mem a (ih x (htr ▸ hx'))

theorem trimRight_last (l : Str) :
    ∀ c, (trimRight l).getLast? = some c → isJsSpace c = false := by
  induction l with
  | nil => intro c h; simp [trimRight] at h
  | cons a cs ih =>
    intro c h
    rw [trimRight] at h
    rcases htr : trimRight cs with _ | ⟨r, rs⟩
    · rw [htr] at h
      by_cases ha : isJsSpace a
      · rw [if_pos ha] at h; simp at h
      · rw [if_neg ha] at h
        simp only [List.getLast?_singleton, Option.some.injEq] at h
        rw [← h]; simpa using ha
    · rw [htr, List.getLast?_cons_cons] at h
      exact ih c (htr ▸ h)

theorem trimRight_eq_self (l : Str)
    (h : ∀ c, l.getLast? = some c → isJsSpace c = false) : trimRight l = l := by
  induction l with
  | nil => rfl
  | cons a cs ih =>
    rw [trimRight]
    cases cs with
    | nil =>
      have := h a rfl
      simp [trimRight, this]
    | cons d ds =>
      have htl : trimRight (d :: ds) = d :: ds :=
        ih (fun c hc => h c (by rw [List.getLast?_cons_cons]; exact hc))
      rw [htl]

theorem trimRight_chain (l : Str) (h : List.Chain' SpRel l) :
    List.Chain' SpRel (trimRight l) := by
  induction l with
  | nil => simp [trimRight]
  | cons a cs ih =>
    rcases List.chain'_cons'.1 h with ⟨hhd, htl⟩
    rw [trimRight]
    rcases htr : trimRight cs with _ | ⟨r, rs⟩
    · by_cases ha : isJsSpace a
      · rw [if_pos ha]; simp
      · rw [if_neg ha]; simp
    · rw [List.chain'_cons']
      refine ⟨fun y hy => ?_, htr ▸ ih htl⟩
      simp only [List.head?_cons, Option.mem_def, Option.some.injEq] at hy
      subst hy
      exact hhd r (trimRight_head? cs r (by rw [htr]; rfl))

theorem trimRight_lower (l : Str) : trimRight (lowerStr l) = lowerStr (trimRight l) := by
  induction l with
  | nil => rfl
  | cons a cs ih =>
    show trimRight (jsLower a :: lowerStr cs) = lowerStr (trimRight (a :: cs))
    rw [trimRight, trimRight, ih]
    rcases htr : trimRight cs with _ | ⟨r, rs⟩
    · show (match lowerStr ([] : Str) with
        | [] => if isJsSpace (jsLower a) then [] else [jsLower a]
        | r :: rs => jsLower a :: r :: rs) = lowerStr (if isJsSpace a then [] else [a])
      by_cases ha : isJsSpace a
      · simp [lowerStr, isJsSpace_jsLower, ha]
      · simp [lowerStr, isJsSpace_jsLower, ha]
    · rfl

theorem dropWhile_head? (p : Char → Bool) (l : Str) :
    ∀ c, (l.dropWhile p).head? = some c → p c = false := by
  induction l with
  | nil => intro c h; simp at h
  | cons a cs ih =>
    intro c h
    rw [List.dropWhile_cons] at h
    by_cases ha : p a
    · rw [if_pos (by simpa using ha)] at h
      exact ih c h
    · rw [if_neg (by simpa using ha)] at h
      simp only [List.head?_cons, Option.some.injEq] at h
      rw [← h]; simpa using ha

theorem dropWhile_eq_self (p : Char → Bool) (l : Str)
    (h : ∀ c, l.head? = some c → p c = false) : l.dropWhile p = l := by
  cases l with
  | nil => rfl
  | cons a cs =>
    rw [List.dropWhile_cons, if_neg (by simp [h a rfl])]

theorem dropWhile_chain (p : Char → Bool) (l : Str) (h : List.Chain' SpRel l) :
    List.Chain' SpRel (l.dropWhile p) := by
  induction l with
  | nil => simp
  | cons a cs ih =>
    rcases List.chain'_cons'.1 h with ⟨hhd, htl⟩
    rw [List.dropWhile_cons]
    by_cases ha : p a
    · rw [if_pos (by simpa using ha)]
      exact ih htl
    · rw [if_neg (by simpa using ha)]
      rw [List.chain'_cons']
      exact ⟨hhd, htl⟩

theorem dropWhile_last (p : Char → Bool) (l : Str)
    (h : ∀ c, l.getLast? = some c → isJsSpace c = false) :
    ∀ c, (l.dropWhile p).getLast? = some c → isJsSpace c = false := by
  induction l with
  | nil => intro c hc; simp at hc
  | cons a cs ih =>
    intro c hc
    rw [List.dropWhile_cons] at hc
    by_cases ha : p a
    · rw [if_pos (by simpa using ha)] at hc
      cases cs with
      | nil => simp at hc
      | cons d ds =>
        exact ih (fun x hx => h x (by rw [List.getLast?_cons_cons]; exact hx)) c hc
    · rw [if_neg (by simpa using ha)] at hc
      exact h c hc

theorem jsTrim_head? (l : Str) : ∀ c, (jsTrim l).head? = some c → isJsSpace c = false := by
  intro c h
  exact dropWhile_head? isJsSpace l c (trimRight_head? _ c h)

theorem jsTrim_last (l : Str) : ∀ c, (jsTrim l).getLast? = some c → isJsSpace c = false :=
  fun c h => trimRight_last _ c h

theorem jsTrim_eq_self (l : Str)
    (hh : ∀ c, l.head? = some c → isJsSpace c = false)
    (hl : ∀ c, l.getLast? = some c → isJsSpace c = false) : jsTrim l = l := by
  unfold jsTrim
  rw [dropWhile_eq_self isJsSpace l hh]
  exact trimRight_eq_self l hl

theorem jsTrim_idem (l : Str) : jsTrim (jsTrim l) = jsTrim l :=
  jsTrim_eq_self _ (jsTrim_head? l) (jsTrim_last l)

theorem mem_jsTrim (l : Str) : ∀ x ∈ jsTrim l, x ∈ l := by
  intro x hx
  exact (List.dropWhile_sublist isJsSpace).mem (mem_trimRight _ x hx)

theorem jsTrim_chain (l : Str) (h : List.Chain' SpRel l) : List.Chain' SpRel (jsTrim l) :=
  trimRight_chain _ (dropWhile_chain isJsSpace l h)

theorem jsTrim_lower (l : Str) : jsTrim (lowerStr l) = lowerStr (jsTrim l) := by
  unfold jsTrim
  have hdw : (lowerStr l).dropWhile isJsSpace = lowerStr (l.dropWhile isJsSpace) := by
    induction l with
    | nil => rfl
    | cons a cs ih =>
      show (jsLower a :: lowerStr cs).dropWhile isJsSpace = lowerStr ((a :: cs).dropWhile isJsSpace)
      rw [List.dropWhile_cons, List.dropWhile_cons, isJsSpace_jsLower]
      by_cases ha : isJsSpace a
      · rw [if_pos (by simpa using ha), if_pos (by simpa using ha), ih]
      · rw [if_neg (by simpa using ha), if_neg (by simpa using ha)]
        rfl
  rw [hdw, trimRight_lower]

theorem jsTrim_nil_iff (l : Str) : jsTrim l = [] ↔ ∀ c ∈ l, isJsSpace c = true := by
  constructor
  · intro h x hx
    have hdw := (trimRight_nil_iff _).1 h
    have hsplit := List.takeWhile_append_dropWhile isJsSpace l
    rw [← hsplit] at hx
    rcases List.mem_append.1 hx with h' | h'
    · exact List.mem_takeWhile_imp h'
    · exact hdw x h'
  · intro h
    unfold jsTrim
    rw [List.dropWhile_eq_nil_iff.2 h]
    rfl

/-! ### Punctuation replacement and lowering -/

theorem mem_punctToSpace (l : Str) : ∀ x ∈ punctToSpace l, x ∈ l ∨ x = ' ' := by
  intro x hx
  rcases List.mem_map.1 hx with ⟨a, ha, hax⟩
  by_cases h : keepChar a
  · rw [if_pos h] at hax
    exact Or.inl (hax ▸ ha)
  · rw [if_neg h] at hax
    exact Or.inr hax.symm

theorem punctToSpace_keep (l : Str) : ∀ x ∈ punctToSpace l, keepChar x = true := by
  intro x hx
  rcases List.mem_map.1 hx with ⟨a, _, hax⟩
  by_cases h : keepChar a
  · rw [if_pos h] at hax
    exact hax ▸ h
  · rw [if_neg h] at hax
    rw [← hax]
    exact keepChar_space

theorem punctToSpace_eq_self (l : Str) (h : ∀ x ∈ l, keepChar x = true) :
    punctToSpace l = l := by
  unfold punctToSpace
  rw [show l.map (fun c => if keepChar c then c else ' ') = l.map id from
    List.map_congr_left (fun a ha => by rw [if_pos (h a ha)]; rfl), List.map_id]

theorem punctToSpace_lower (l : Str) :
    punctToSpace (lowerStr l) = lowerStr (punctToSpace l) := by
  unfold punctToSpace lowerStr
  rw [List.map_map, List.map_map]
  apply List.map_congr_left
  intro a _
  show (if keepChar (jsLower a) then jsLower a else ' ') =
    jsLower (if keepChar a then a else ' ')
  rw [keepChar_jsLower]
  by_cases h : keepChar a
  · rw [if_pos h, if_pos h]
  · rw [if_neg h, if_neg h, jsLower_space]

theorem mem_punctDrop (l : Str) : ∀ x ∈ punctDrop l, x ∈ l :=
  fun x hx => List.mem_of_mem_filter hx

theorem punctDrop_keep (l : Str) : ∀ x ∈ punctDrop l, keepChar x = true :=
  fun _ hx => List.of_mem_filter hx

theorem punctDrop_eq_self (l : Str) (h : ∀ x ∈ l, keepChar x = true) : punctDrop l = l :=
  List.filter_eq_self.2 h

theorem punctDrop_lower (l : Str) : punctDrop (lowerStr l) = lowerStr (punctDrop l) := by
  unfold punctDrop lowerStr
  induction l with
  | nil => rfl
  | cons a cs ih =>
    show ((jsLower a :: cs.map jsLower).filter keepChar) = (List.filter keepChar (a :: cs)).map jsLower
    rw [List.filter_cons, List.filter_cons, keepChar_jsLower]
    by_cases h : keepChar a
    · rw [if_pos (by simpa using h), if_pos (by simpa using h), List.map_cons, ih]
    · rw [if_neg (by simpa using h), if_neg (by simpa using h), ih]

theorem lowerStr_idem (l : Str) : lowerStr (lowerStr l) = lowerStr l := by
  unfold lowerStr
  rw [List.map_map]
  exact List.map_congr_left (fun a _ => jsLower_idem a)

theorem lowerStr_eq_self (l : Str) (h : ∀ x ∈ l, jsLower x = x) : lowerStr l = l := by
  unfold lowerStr
  rw [show l.map jsLower = l.map id from List.map_congr_left (fun a ha => h a ha), List.map_id]

theorem mem_lowerStr_fixed (l : Str) : ∀ x ∈ lowerStr l, jsLower x = x := by
  intro x hx
  rcases List.mem_map.1 hx with ⟨a, _, hax⟩
  rw [← hax]
  exact jsLower_idem a

/-! ### Spaces in the last position survive collapsing only as a space -/

theorem collapseGo_last (l : Str) :
    ∀ b c, (∀ d, l.getLast? = some d → isJsSpace d = false) →
      (collapseGo b l).getLast? = some c → isJsSpace c = false := by
  induction l with
  | nil => intro b c _ h; simp [collapseGo] at h
  | cons a cs ih =>
    intro b c hend hlast
    by_cases ha : isJsSpace a
    · cases cs with
      | nil => exact absurd (hend a rfl) (by simp [ha])
      | cons d ds =>
        have hend' : ∀ d', (d :: ds).getLast? = some d' → isJsSpace d' = false :=
          fun d' h' => hend d' (by rw [List.getLast?_cons_cons]; exact h')
        rw [collapseGo, if_pos ha] at hlast
        cases b with
        | true => exact ih true c hend' hlast
        | false =>
          rw [if_neg (by simp)] at hlast
          rcases hcg : collapseGo true (d :: ds) with _ | ⟨r, rs⟩
          · exfalso
            have hall := (collapseGo_true_eq_nil_iff (d :: ds)).1 hcg
            have hx : (d :: ds).getLast? = some ((d :: ds).getLast (by simp)) :=
              List.getLast?_eq_getLast _ _
            have hmem := List.getLast_mem (show d :: ds ≠ [] by simp)
            have := hend' _ hx
            rw [hall _ hmem] at this
            simp at this
          · rw [hcg] at hlast
            rw [show (' ' :: r :: rs).getLast? = (r :: rs).getLast? from
              List.getLast?_cons_cons] at hlast
            exact ih true c hend' (by rw [hcg]; exact hlast)
    · rw [collapseGo, if_neg ha] at hlast
      cases cs with
      | nil =>
        simp only [collapseGo, List.getLast?_singleton, Option.some.injEq] at hlast
        rw [← hlast]
        simpa using ha
      | cons d ds =>
        have hend' : ∀ d', (d :: ds).getLast? = some d' → isJsSpace d' = false :=
          fun d' h' => hend d' (by rw [List.getLast?_cons_cons]; exact h')
        rcases hcg : collapseGo false (d :: ds) with _ | ⟨r, rs⟩
        · exact absurd hcg (collapseGo_false_ne_nil d ds)
        · rw [hcg, List.getLast?_cons_cons] at hlast
          exact ih false c hend' (by rw [hcg]; exact hlast)

theorem collapseWs_head (l : Str) (hh : ∀ c, l.head? = some c → isJsSpace c = false) :
    ∀ c, (collapseWs l).head? = some c → isJsSpace c = false := by
  cases l with
  | nil => intro c h; simp [collapseWs, collapseGo] at h
  | cons a cs =>
    intro c h
    have ha := hh a rfl
    rw [collapseWs, collapseGo, if_neg (by simp [ha])] at h
    simp only [List.head?_cons, Option.some.injEq] at h
    rw [← h]
    exact ha

/-! ### Idempotence facts about the three normalizers -/

theorem norm_idem (s : Str) : norm (norm s) = norm s := by
  unfold norm collapseWs
  rw [collapseGo_lower, jsTrim_lower, lowerStr_idem]
  have hfix : collapseGo false (jsTrim (collapseGo false s)) = jsTrim (collapseGo false s) := by
    apply collapseGo_fix
    · intro x hx
      exact collapseGo_spaces s false x (mem_jsTrim _ x hx)
    · exact jsTrim_chain _ (collapseGo_chain s false)
    · simp
  rw [hfix, jsTrim_idem]

theorem normalizeChat_lower_fixed (s : Str) : ∀ x ∈ normalizeChat s, jsLower x = x := by
  intro x hx
  unfold normalizeChat at hx
  rcases mem_collapseGo _ false x (mem_jsTrim _ x hx) with h | rfl
  · exact mem_lowerStr_fixed _ x (mem_punctDrop _ x h)
  · exact jsLower_space

theorem normalizeChat_keep (s : Str) : ∀ x ∈ normalizeChat s, keepChar x = true := by
  intro x hx
  unfold normalizeChat at hx
  rcases mem_collapseGo _ false x (mem_jsTrim _ x hx) with h | rfl
  · exact punctDrop_keep _ x h
  · exact keepChar_space

theorem normalizeChat_idem (s : Str) : normalizeChat (normalizeChat s) = normalizeChat s := by
  conv_lhs => rw [normalizeChat]
  rw [lowerStr_eq_self _ (normalizeChat_lower_fixed s),
    punctDrop_eq_self _ (normalizeChat_keep s)]
  have hfix : collapseWs (normalizeChat s) = normalizeChat s := by
    apply collapseGo_fix
    · intro x hx
      unfold normalizeChat at hx
      exact collapseGo_spaces _ false x (mem_jsTrim _ x hx)
    · unfold normalizeChat
      exact jsTrim_chain _ (collapseGo_chain _ false)
    · simp
  rw [hfix]
  conv_lhs => rw [normalizeChat]
  rw [jsTrim_idem]
  rfl

theorem normalizeText_lower_fixed (s : Str) : ∀ x ∈ normalizeText s, jsLower x = x := by
  intro x hx
  unfold normalizeText at hx
  rcases mem_punctToSpace _ x (mem_jsTrim _ x hx) with h | rfl
  · rcases mem_collapseGo _ false x h with h' | rfl
    · exact mem_lowerStr_fixed _ x h'
    · exact jsLower_space
  · exact jsLower_space

theorem normalizeText_keep (s : Str) : ∀ x ∈ normalizeText s, keepChar x = true := by
  intro x hx
  unfold normalizeText at hx
  exact punctToSpace_keep _ x (mem_jsTrim _ x hx)

theorem normalizeText_twice (s : Str) :
    normalizeText (normalizeText s) = collapseWs (normalizeText s) := by
  conv_lhs => rw [normalizeText]
  rw [lowerStr_eq_self _ (normalizeText_lower_fixed s)]
  have hpfix : punctToSpace (collapseWs (normalizeText s)) = collapseWs (normalizeText s) := by
    apply punctToSpace_eq_self
    intro x hx
    rcases mem_collapseGo _ false x hx with h | rfl
    · exact normalizeText_keep s x h
    · exact keepChar_space
  rw [hpfix]
  apply jsTrim_eq_self
  · exact collapseWs_head _ (fun c h => jsTrim_head? _ c (by unfold normalizeText at *; exact h))
  · intro c h
    apply collapseGo_last (normalizeText s) false c
    · intro d hd
      exact jsTrim_last _ d (by unfold normalizeText at *; exact hd)
    · exact h

theorem normalizeText_triple (s : Str) :
    normalizeText (normalizeText (normalizeText s)) = normalizeText (normalizeText s) := by
  rw [normalizeText_twice (normalizeText s), normalizeText_twice s, collapseWs_idem]

/-! ### The span-marking loop -/

theorem spanStart_succ_getD (norms : List Str) :
    ∀ i, i < norms.length → spanStart norms (i + 1) = spanStart norms i + (norms.getD i []).length + 1 := by
  induction norms with
  | nil => intro i hi; simp at hi
  | cons n rest ih =>
    intro i hi
    cases i with
    | zero =>
      simp only [spanStart, List.getD_cons_zero]
      omega
    | succ j =>
      rw [List.getD_cons_succ]
      have := ih j (by simpa using hi)
      simp only [spanStart]
      omega

theorem spanStart_le_succ (norms : List Str) : ∀ a, spanStart norms a ≤ spanStart norms (a + 1) := by
  induction norms with
  | nil => intro a; cases a <;> simp [spanStart]
  | cons n rest ih =>
    intro a
    cases a with
    | zero => simp [spanStart]
    | succ b =>
      simp only [spanStart]
      have := ih b
      omega

theorem spanStart_mono (norms : List Str) : ∀ a b, a ≤ b → spanStart norms a ≤ spanStart norms b := by
  intro a b hab
  induction b with
  | zero =>
    have : a = 0 := by omega
    simp [this]
  | succ b ihb =>
    rcases Nat.lt_or_ge a (b + 1) with h | h
    · exact le_trans (ihb (by omega)) (spanStart_le_succ norms b)
    · have : a = b + 1 := by omega
      simp [this]

theorem markRowGo_eq (norms : List Str) : ∀ pos mi me,
    markRowGo norms pos mi me = (List.range norms.length).map
      (fun i => decide (pos + spanStart norms i < me ∧ mi < pos + spanStart norms (i + 1))) := by
  induction norms with
  | nil => intro pos mi me; rfl
  | cons n rest ih =>
    intro pos mi me
    rw [markRowGo, List.length_cons, List.range_succ_eq_map, List.map_cons, List.map_map]
    have hhead : decide (pos < me ∧ mi < pos + n.length + 1) =
        decide (pos + spanStart (n :: rest) 0 < me ∧ mi < pos + spanStart (n :: rest) (0 + 1)) := by
      rw [decide_eq_decide]
      simp only [spanStart]
      omega
    have htail : markRowGo rest (pos + n.length + 1) mi me =
        List.map ((fun i => decide (pos + spanStart (n :: rest) i < me ∧
          mi < pos + spanStart (n :: rest) (i + 1))) ∘ Nat.succ) (List.range rest.length) := by
      rw [ih]
      apply List.map_congr_left
      intro i _
      show decide _ = decide _
      rw [decide_eq_decide]
      simp only [spanStart]
      omega
    rw [hhead, htail]

theorem markRow_eq (norms : List Str) (mi me : Nat) :
    markRow norms mi me = (List.range norms.length).map
      (fun i => decide (spanStart norms i < me ∧ mi < spanStart norms (i + 1))) := by
  rw [markRow, markRowGo_eq]
  apply List.map_congr_left
  intro i _
  rw [decide_eq_decide]
  omega

theorem markRow_getD (norms : List Str) (mi me : Nat) (i : Nat) :
    (markRow norms mi me).getD i false =
      if i < norms.length then decide (spanStart norms i < me ∧ mi < spanStart norms (i + 1))
      else false := by
  rw [markRow_eq, List.getD_eq_getElem?_getD, List.getElem?_map]
  by_cases h : i < norms.length
  · rw [if_pos h, List.getElem?_range h]
    rfl
  · rw [if_neg h]
    rw [List.getElem?_eq_none (by simpa using h)]
    rfl

theorem markRow_me_zero (norms : List Str) : ∀ pos mi, (markRowGo norms pos mi 0).any (fun b => b) = false := by
  induction norms with
  | nil => intro pos mi; rfl
  | cons n rest ih =>
    intro pos mi
    rw [markRowGo, List.any_cons]
    rw [show decide (pos < 0 ∧ mi < pos + n.length + 1) = false by simp]
    rw [ih]
    rfl

/-! ### Traversal lemmas -/

theorem highlightQuote_hostTag (st : PageState) (q : Str) :
    hostTag (highlightQuote st q).1 = hostTag st := by
  cases st <;> rfl

theorem jumpToGo_snd (doc : List PageState) (q : Str) :
    ∀ pg, (jumpToGo doc q pg).2 = firstMatchGo doc q pg := by
  induction doc with
  | nil => intro pg; rfl
  | cons st rest ih =>
    intro pg
    rw [jumpToGo, firstMatchGo]
    by_cases h : (highlightQuote st q).2.1
    · rw [if_pos h, if_pos h]
    · rw [if_neg h, if_neg h]
      exact ih (pg + 1)

theorem jumpToGo_hostmap (doc : List PageState) (q : Str) :
    ∀ pg, ((jumpToGo doc q pg).1).map hostTag = doc.map hostTag := by
  induction doc with
  | nil => intro pg; rfl
  | cons st rest ih =>
    intro pg
    rw [jumpToGo]
    by_cases h : (highlightQuote st q).2.1
    · rw [if_pos h]
      simp only [List.map_cons, highlightQuote_hostTag]
    · rw [if_neg h]
      simp only [List.map_cons, highlightQuote_hostTag, ih (pg + 1)]

theorem hostAt_jumpToGo (doc : List PageState) (q : Str) (pg p : Nat) :
    hostAt (jumpToGo doc q pg).1 p = hostAt doc p := by
  unfold hostAt
  rw [jumpToGo_hostmap]

theorem firstMatchGo_correct (doc : List PageState) (q : Str) :
    ∀ pg p, firstMatchGo doc q pg = some p →
      pg ≤ p ∧ (highlightQuote (doc.getD (p - pg) .noHost) q).2.1 = true ∧
        ∀ j, j < p - pg → (highlightQuote (doc.getD j .noHost) q).2.1 = false := by
  induction doc with
  | nil => intro pg p h; simp [firstMatchGo] at h
  | cons st rest ih =>
    intro pg p h
    rw [firstMatchGo] at h
    by_cases hs : (highlightQuote st q).2.1
    · rw [if_pos hs] at h
      have hpg : pg = p := by injection h
      subst hpg
      refine ⟨le_refl _, ?_, ?_⟩
      · simpa [Nat.sub_self] using hs
      · intro j hj
        omega
    · rw [if_neg hs] at h
      obtain ⟨h1, h2, h3⟩ := ih (pg + 1) p h
      refine ⟨by omega, ?_, ?_⟩
      · have hsub : p - pg = (p - (pg + 1)) + 1 := by omega
        rw [hsub, List.getD_cons_succ]
        exact h2
      · intro j hj
        cases j with
        | zero => simpa using hs
        | succ j' =>
          rw [List.getD_cons_succ]
          exact h3 j' (by omega)

/-! ### Highlight cleanliness -/

theorem any_map_false {α : Type} (l : List α) : (l.map (fun _ => false)).any (fun b => b) = false := by
  induction l with
  | nil => rfl
  | cons a cs ih => simpa [List.any_cons] using ih

theorem core_marks_false (texts : List Str) (q : Str)
    (h : (highlightQuoteCore texts q).2.1 = false) :
    (highlightQuoteCore texts q).1.any (fun b => b) = false := h

theorem applyMarks_clean (fs : List Frag) (marks : List Bool)
    (hfs : ∀ f ∈ fs, f.hl = false) (hm : marks.any (fun b => b) = false) :
    ∀ f ∈ applyMarks fs marks, f.hl = false := by
  induction fs generalizing marks with
  | nil => intro f hf; simp [applyMarks] at hf
  | cons g gs ih =>
    intro f hf
    cases marks with
    | nil =>
      rw [applyMarks] at hf
      exact hfs f hf
    | cons b bs =>
      rw [applyMarks] at hf
      rw [List.any_cons] at hm
      have hb : b = false := by
        cases b
        · rfl
        · simp at hm
      have hbs : bs.any (fun x => x) = false := by
        cases hany : bs.any (fun x => x)
        · rfl
        · rw [hany] at hm
          simp at hm
      subst hb
      rcases List.mem_cons.1 hf with heq | hf'
      · have hg : f = g := by simpa using heq
        rw [hg]
        exact hfs g (List.mem_cons_self _ _)
      · exact ih bs (fun f' hf'' => hfs f' (List.mem_cons_of_mem g hf'')) hbs f hf'

theorem clearFrag_hl (spans : List Frag) : ∀ f ∈ spans.map clearFrag, f.hl = false := by
  intro f hf
  rcases List.mem_map.1 hf with ⟨g, _, hg⟩
  rw [← hg]
  rfl

theorem highlightQuote_fail_clean (st : PageState) (q : Str)
    (h : (highlightQuote st q).2.1 = false) :
    pageClean (highlightQuote st q).1 = true := by
  cases st with
  | noHost => rfl
  | noLayer => rfl
  | layer spans =>
    have hm : (highlightQuoteCore (spans.map Frag.text) q).1.any (fun b => b) = false :=
      core_marks_false _ _ h
    show pageClean (.layer (applyMarks (spans.map clearFrag) _)) = true
    rw [pageClean, List.all_eq_true]
    intro f hf
    have := applyMarks_clean (spans.map clearFrag) _ (clearFrag_hl spans) hm f hf
    simp [this]

theorem jumpToGo_clean (doc : List PageState) (q : Str) :
    ∀ pg, firstMatchGo doc q pg = none →
      docClean (jumpToGo doc q pg).1 = true ∧ (jumpToGo doc q pg).2 = none := by
  induction doc with
  | nil => intro pg _; exact ⟨rfl, rfl⟩
  | cons st rest ih =>
    intro pg h
    rw [firstMatchGo] at h
    have hs : (highlightQuote st q).2.1 = false := by
      by_contra hcon
      rw [if_pos (by simpa using hcon)] at h
      exact absurd h (by simp)
    rw [if_neg (by simp [hs])] at h
    obtain ⟨ih1, ih2⟩ := ih (pg + 1) h
    rw [jumpToGo, if_neg (by simp [hs])]
    constructor
    · show docClean ((highlightQuote st q).1 :: (jumpToGo rest q (pg + 1)).1) = true
      rw [docClean, List.all_cons, highlightQuote_fail_clean st q hs]
      rw [show (jumpToGo rest q (pg + 1)).1.all pageClean = docClean (jumpToGo rest q (pg + 1)).1 from rfl, ih1]
      rfl
    · exact ih2

/-! ### Substring search -/

theorem containsStr_nil_needle (hay : Str) : containsStr hay [] = true := by
  unfold containsStr
  cases hay <;> simp [idxOf, isPrefOf]

theorem idxOf_eq_none_of_not_contains (hay needle : Str) (h : containsStr hay needle = false) :
    idxOf hay needle = none := by
  unfold containsStr at h
  cases hi : idxOf hay needle
  · rfl
  · rw [hi] at h
    simp at h

theorem idxOf_exists_of_contains (hay needle : Str) (h : containsStr hay needle = true) :
    ∃ i, idxOf hay needle = some i := by
  unfold containsStr at h
  cases hi : idxOf hay needle
  · rw [hi] at h
    simp at h
  · exact ⟨_, rfl⟩

theorem take_cons_of_pos (c : Char) (rest : Str) (k : Nat) (h : 0 < k) :
    (c :: rest).take k = c :: rest.take (k - 1) := by
  cases k with
  | zero => omega
  | succ k' => rfl

theorem containsStr_allspace (hay : Str) (hh : ∀ c ∈ hay, isJsSpace c = true)
    (c : Char) (rest : Str) (hc : isJsSpace c = false) :
    containsStr hay (c :: rest) = false := by
  induction hay with
  | nil => rfl
  | cons a t ih =>
    unfold containsStr idxOf
    have hca : ¬(c = a) := by
      intro hac
      rw [hac] at hc
      rw [hh a (List.mem_cons_self _ _)] at hc
      exact absurd hc (by simp)
    rw [if_neg (by rw [isPrefOf, if_neg hca]; simp)]
    have := ih (fun x hx => hh x (List.mem_cons_of_mem a hx))
    unfold containsStr at this
    rw [Option.isSome_map']
    exact this

/-! ### Whitespace-only pages -/

theorem lowerStr_allspace (t : Str) (h : ∀ c ∈ t, isJsSpace c = true) :
    ∀ c ∈ lowerStr t, isJsSpace c = true := by
  intro c hc
  rcases List.mem_map.1 hc with ⟨a, ha, hac⟩
  rw [← hac, isJsSpace_jsLower]
  exact h a ha

theorem collapseWs_allspace (t : Str) (h : ∀ c ∈ t, isJsSpace c = true) :
    collapseWs t = [] ∨ collapseWs t = [' '] := by
  cases t with
  | nil => exact Or.inl rfl
  | cons a cs =>
    right
    rw [collapseWs, collapseGo, if_pos (h a (List.mem_cons_self _ _))]
    rw [(collapseGo_true_eq_nil_iff cs).2 (fun x hx => h x (List.mem_cons_of_mem a hx))]
    rfl

theorem normalizeText_allspace (t : Str) (h : ∀ c ∈ t, isJsSpace c = true) :
    normalizeText t = [] := by
  unfold normalizeText
  rcases collapseWs_allspace (lowerStr t) (lowerStr_allspace t h) with hc | hc
  · rw [hc]
    rfl
  · rw [hc]
    decide

theorem mem_joinSp_of_mem (ls : List Str) : ∀ s ∈ ls, ∀ x ∈ s, x ∈ joinSp ls := by
  induction ls with
  | nil => intro s hs; simp at hs
  | cons a rest ih =>
    intro s hs x hx
    cases rest with
    | nil =>
      rcases List.mem_cons.1 hs with rfl | h'
      · exact hx
      · simp at h'
    | cons b bs =>
      rw [joinSp]
      rcases List.mem_cons.1 hs with rfl | h'
      · exact List.mem_append_left _ hx
      · exact List.mem_append_right _ (List.mem_cons_of_mem _ (ih s h' x hx))

theorem joinSp_allnil (ls : List Str) (h : ∀ s ∈ ls, s = []) :
    ∀ x ∈ joinSp ls, x = ' ' := by
  induction ls with
  | nil => intro x hx; simp [joinSp] at hx
  | cons a rest ih =>
    intro x hx
    cases rest with
    | nil =>
      rw [joinSp, h a (List.mem_cons_self _ _)] at hx
      simp at hx
    | cons b bs =>
      rw [joinSp, h a (List.mem_cons_self _ _)] at hx
      rcases List.mem_cons.1 (by simpa using hx) with rfl | hx'
      · rfl
      · exact ih (fun s hs => h s (List.mem_cons_of_mem a hs)) x hx'

theorem idxOf_nil_needle (hay : Str) : idxOf hay [] = some 0 := by
  cases hay <;> simp [idxOf, isPrefOf]

theorem tierPick_nil (cn : Str) : tierPick cn [] = some (.full, 0) := by
  unfold tierPick
  rw [show tierLen .full ([] : Str).length = 0 from rfl, List.take_nil, idxOf_nil_needle]

/-- A page whose joined span text trims to nothing can never produce a match:
its gate fails for every non-empty normalized quote, and an empty normalized
quote matches at index 0 with an empty range, marking no span. -/
theorem highlightQuote_allspace (spans : List Frag) (q : Str)
    (hx : tryExtract (.layer spans) = none) :
    (highlightQuote (.layer spans) q).2.1 = false := by
  have htr : jsTrim (joinSp (spans.map Frag.text)) = [] := by
    simp only [tryExtract] at hx
    by_cases h : 0 < (jsTrim (joinSp (spans.map Frag.text))).length
    · rw [if_pos h] at hx
      simp at hx
    · have : (jsTrim (joinSp (spans.map Frag.text))).length = 0 := by omega
      exact List.length_eq_zero.1 this
  have hallsp : ∀ c ∈ joinSp (spans.map Frag.text), isJsSpace c = true :=
    (jsTrim_nil_iff _).1 htr
  have htexts : ∀ t ∈ spans.map Frag.text, ∀ c ∈ t, isJsSpace c = true :=
    fun t ht c hc => hallsp c (mem_joinSp_of_mem _ t ht c hc)
  have hnorms : ∀ t ∈ spans.map Frag.text, normalizeText t = [] :=
    fun t ht => normalizeText_allspace t (htexts t ht)
  show (hqMarks (spans.map Frag.text) q).1.any (fun b => b) = false
  simp only [hqMarks]
  by_cases h0 : (spans.map Frag.text).isEmpty
  · rw [if_pos h0]
    rfl
  · rw [if_neg h0]
    have hfull : ∀ x ∈ joinSp ((spans.map Frag.text).map normalizeText), x = ' ' := by
      apply joinSp_allnil
      intro s hs
      rcases List.mem_map.1 hs with ⟨t, ht, hts⟩
      rw [← hts]
      exact hnorms t ht
    rcases hsq : normalizeText q with _ | ⟨c, rest⟩
    · -- empty normalized quote: gate passes, the full prefix hits at 0 with an
      -- empty match range, so no span overlaps and nothing is marked
      rw [if_neg (by
        simp only [List.length_nil, List.take_nil]
        rw [containsStr_nil_needle]
        simp)]
      rw [tierPick_nil]
      show (markRow _ 0 (0 + (List.take (tierLen .full (List.length ([] : Str))) []).length)).any
        (fun b => b) = false
      simp only [List.length_nil, List.take_nil, Nat.add_zero]
      exact markRow_me_zero _ 0 0
    · -- non-empty normalized quote: its head is not whitespace, the page text
      -- is all spaces, so the 15-character gate rejects the page
      have hhead : (normalizeText q).head? = some c := by rw [hsq]; rfl
      have hc : isJsSpace c = false := jsTrim_head? (punctToSpace (collapseWs (lowerStr q))) c hhead
      have hkpos : 0 < min 15 (c :: rest).length := by
        simp only [List.length_cons]
        omega
      rw [take_cons_of_pos c rest _ hkpos]
      rw [if_pos (containsStr_allspace _ (fun x hxx => by
        rw [hfull x hxx]; decide) c _ hc)]
      exact any_map_false _

/-! ### The 15-character gate and the ratio tiers -/

theorem hqMarks_gate_reject (texts : List Str) (q : Str)
    (hne : texts.isEmpty = false)
    (hg : containsStr (joinSp (texts.map normalizeText))
      ((normalizeText q).take (min 15 (normalizeText q).length)) = false) :
    hqMarks texts q = (texts.map (fun _ => false), none) := by
  simp only [hqMarks]
  rw [if_neg (by simp [hne]), if_pos hg]

theorem core_gate_reject (texts : List Str) (q : Str)
    (hne : texts.isEmpty = false)
    (hg : containsStr (joinSp (texts.map normalizeText))
      ((normalizeText q).take (min 15 (normalizeText q).length)) = false) :
    highlightQuoteCore texts q = (texts.map (fun _ => false), false, none) := by
  unfold highlightQuoteCore
  rw [hqMarks_gate_reject texts q hne hg, any_map_false]

theorem tierPick_full (cn sq : Str) (h100 : containsStr cn sq = true) :
    ∃ i, tierPick cn sq = some (.full, i) := by
  obtain ⟨i, hi⟩ := idxOf_exists_of_contains _ _ h100
  refine ⟨i, ?_⟩
  unfold tierPick
  rw [show tierLen .full sq.length = sq.length from rfl, List.take_length, hi]

theorem tierPick_r75 (cn sq : Str)
    (h100 : containsStr cn sq = false)
    (h75 : containsStr cn (sq.take (tierLen .r75 sq.length)) = true) :
    ∃ i, tierPick cn sq = some (.r75, i) := by
  obtain ⟨i, hi⟩ := idxOf_exists_of_contains _ _ h75
  refine ⟨i, ?_⟩
  unfold tierPick
  rw [show tierLen .full sq.length = sq.length from rfl, List.take_length]
  rw [idxOf_eq_none_of_not_contains _ _ h100, hi]

theorem tierPick_r50 (cn sq : Str)
    (h100 : containsStr cn sq = false)
    (h75 : containsStr cn (sq.take (tierLen .r75 sq.length)) = false)
    (h50 : containsStr cn (sq.take (tierLen .r50 sq.length)) = true) :
    ∃ i, tierPick cn sq = some (.r50, i) ∧
      idxOf cn (sq.take (tierLen .r50 sq.length)) = some i := by
  obtain ⟨i, hi⟩ := idxOf_exists_of_contains _ _ h50
  refine ⟨i, ?_, hi⟩
  unfold tierPick
  rw [show tierLen .full sq.length = sq.length from rfl, List.take_length]
  rw [idxOf_eq_none_of_not_contains _ _ h100, idxOf_eq_none_of_not_contains _ _ h75, hi]
  rfl

theorem core_tier_r50 (texts : List Str) (q : Str)
    (hne : texts.isEmpty = false)
    (hg : containsStr (joinSp (texts.map normalizeText))
      ((normalizeText q).take (min 15 (normalizeText q).length)) = true)
    (h100 : containsStr (normalizeText (joinSp texts)) (normalizeText q) = false)
    (h75 : containsStr (normalizeText (joinSp texts))
      ((normalizeText q).take (tierLen .r75 (normalizeText q).length)) = false)
    (h50 : containsStr (normalizeText (joinSp texts))
      ((normalizeText q).take (tierLen .r50 (normalizeText q).length)) = true) :
    (highlightQuoteCore texts q).2.2 = some .r50 := by
  obtain ⟨i, htp, _⟩ := tierPick_r50 _ _ h100 h75 h50
  show (hqMarks texts q).2 = some .r50
  simp only [hqMarks]
  rw [if_neg (by simp [hne]), if_neg (by simp [hg]), htp]

theorem core_tier_full (texts : List Str) (q : Str)
    (hne : texts.isEmpty = false)
    (hg : containsStr (joinSp (texts.map normalizeText))
      ((normalizeText q).take (min 15 (normalizeText q).length)) = true)
    (h100 : containsStr (normalizeText (joinSp texts)) (normalizeText q) = true) :
    (highlightQuoteCore texts q).2.2 = some .full := by
  obtain ⟨i, htp⟩ := tierPick_full _ (normalizeText q) h100
  show (hqMarks texts q).2 = some .full
  simp only [hqMarks]
  rw [if_neg (by simp [hne]), if_neg (by simp [hg]), htp]

theorem core_tier_r75 (texts : List Str) (q : Str)
    (hne : texts.isEmpty = false)
    (hg : containsStr (joinSp (texts.map normalizeText))
      ((normalizeText q).take (min 15 (normalizeText q).length)) = true)
    (h100 : containsStr (normalizeText (joinSp texts)) (normalizeText q) = false)
    (h75 : containsStr (normalizeText (joinSp texts))
      ((normalizeText q).take (tierLen .r75 (normalizeText q).length)) = true) :
    (highlightQuoteCore texts q).2.2 = some .r75 := by
  obtain ⟨i, htp⟩ := tierPick_r75 _ (normalizeText q) h100 h75
  show (hqMarks texts q).2 = some .r75
  simp only [hqMarks]
  rw [if_neg (by simp [hne]), if_neg (by simp [hg]), htp]

end Lemmas

/-! ## Claim-level theorems -/

/-- Claim C1: for every `jumpTo` call with a non-empty quote, the traversal is
ascending from page 1, the supplied page hint is ignored entirely, and the
first page on which `highlightQuote` succeeds is the one selected; any earlier
page fails. -/
theorem c1_traversal_ascending_first_found (doc : List PageState) (t t' : Option Nat)
    (q : Str) (hq : q ≠ []) :
    jumpTo doc t (some q) = jumpTo doc t' (some q) ∧
    (jumpTo doc t (some q)).outcome =
      (match firstMatch doc q with
        | some p => Outcome.found p
        | none => Outcome.notFound) ∧
    ∀ p, firstMatch doc q = some p →
      1 ≤ p ∧ (highlightQuote (pageAt doc p) q).2.1 = true ∧
        ∀ p', 1 ≤ p' → p' < p → (highlightQuote (pageAt doc p') q).2.1 = false := by
  obtain ⟨c, cs, rfl⟩ := List.exists_cons_of_ne_nil hq
  refine ⟨rfl, ?_, ?_⟩
  · simp only [jumpTo]
    rw [show firstMatch doc (c :: cs) = firstMatchGo doc (c :: cs) 1 from rfl,
      ← jumpToGo_snd doc (c :: cs) 1]
    cases hsnd : (jumpToGo doc (c :: cs) 1).2 with
    | none => rfl
    | some p => rfl
  · intro p hp
    obtain ⟨h1, h2, h3⟩ := firstMatchGo_correct doc (c :: cs) 1 p hp
    refine ⟨h1, h2, ?_⟩
    intro p' hp'1 hp'2
    exact h3 (p' - 1) (by omega)

/-- Witness for C1, instantiating the spec's test: pages 2 and 5 of `exDoc`
both contain the quote, and page 2 is the one selected. -/
theorem c1_witness :
    (jumpTo exDoc (some 5) (some exQuote)).outcome = Outcome.found 2 := by
  rw [(c1_traversal_ascending_first_found exDoc (some 5) (some 1) exQuote (by decide)).2.1]
  decide

/-- Claim C2 counterexample: after a `jumpTo` on `exDoc` that matches on page
2, page 2 carries a fresh highlight while page 5 still carries its stale
highlight — two highlighted passages exist at once, so clearing is not
document-wide. -/
theorem c2_counterexample :
    pageClean (pageAt (jumpTo exDoc none (some exQuote)).doc 2) = false ∧
    pageClean (pageAt (jumpTo exDoc none (some exQuote)).doc 5) = false := by
  decide

/-- Claim C2 as amended: clearing is per page, not per document — on the page
that `highlightQuote` touches, previously marked fragments never survive (its
entire result is a function of the span texts alone, independent of which
spans were highlighted before); residual highlights may persist on pages after
the matched one. -/
theorem c2_per_page_clearing (spans spans' : List Frag) (q : Str)
    (h : spans.map Frag.text = spans'.map Frag.text) :
    highlightQuote (.layer spans) q = highlightQuote (.layer spans') q := by
  have hcf : ∀ l : List Frag,
      l.map clearFrag = (l.map Frag.text).map (fun t => Frag.mk t false) := by
    intro l
    rw [List.map_map]
    exact List.map_congr_left (fun f _ => rfl)
  simp only [highlightQuote]
  rw [hcf spans, hcf spans', h]

/-- Witness for the amended C2: a page whose only span is highlighted and the
same page with the highlight absent produce identical `highlightQuote`
results. -/
theorem c2_witness :
    highlightQuote (.layer [⟨"ab".toList, true⟩]) "zz".toList =
      highlightQuote (.layer [⟨"ab".toList, false⟩]) "zz".toList :=
  c2_per_page_clearing _ _ _ (by decide)

/-- Claim C3 counterexample: `normalizeText` is not idempotent — on `"a..b"`
the two adjacent dots become two adjacent spaces, which a second application
collapses. -/
theorem c3_counterexample :
    normalizeText (normalizeText ("a..b".toList)) ≠ normalizeText ("a..b".toList) := by
  decide

/-- Claim C3 as amended: `norm` (part_000) and `normalize` (ChatPane) are
idempotent; the quote-matching `normalizeText` is not, because it replaces
punctuation with spaces after whitespace collapsing — but a second application
is a fixed point of further applications. -/
theorem c3_idempotence_amended :
    (∀ s : Str, norm (norm s) = norm s) ∧
    (∀ s : Str, normalizeChat (normalizeChat s) = normalizeChat s) ∧
    (∀ s : Str, normalizeText (normalizeText (normalizeText s)) =
      normalizeText (normalizeText s)) :=
  ⟨norm_idem, normalizeChat_idem, normalizeText_triple⟩

/-- Claim C4 counterexample: `normalizeText` called on `undefined` raises a
`TypeError` (modelled `none`) instead of returning the empty string. -/
theorem c4_counterexample :
    normalizeTextOpt none = none ∧ normalizeTextOpt none ≠ some ([] : Str) :=
  ⟨rfl, by decide⟩

/-- Claim C4 as amended: the guarded normalizers `norm` and `normalize` are
total, with empty output on `undefined` and on the empty string; the unguarded
`normalizeText` never fails on string input and maps the empty string to the
empty string, but has no guard for a missing argument. -/
theorem c4_totality_amended :
    normOpt none = [] ∧ normOpt (some []) = [] ∧
    normalizeOpt none = [] ∧ normalizeOpt (some []) = [] ∧
    (∀ s : Str, (normalizeTextOpt (some s)).isSome = true) ∧
    normalizeText [] = [] :=
  ⟨rfl, rfl, rfl, rfl, fun _ => rfl, rfl⟩

/-- Claim C5 counterexample: a `jumpTo` with an absent quote and page hint 2
scrolls to page 1, not to the hinted page. -/
theorem c5_counterexample :
    (jumpTo exDoc (some 2) none).scroll = some 1 ∧
    (jumpTo exDoc (some 2) none).scroll ≠ some 2 := by
  decide

/-- Claim C5 as amended: on a falsy quote (absent or empty), part_000's
`jumpTo` always scrolls to page 1 — the page hint is ignored even here — and
returns without touching the document or applying any highlight and without
error (navigation-only). -/
theorem c5_nav_only_amended (doc : List PageState) (t : Option Nat) (q : Option Str)
    (hq : isFalsyQuote q = true) :
    jumpTo doc t q = ⟨doc, if hostAt doc 1 then some 1 else none, .navOnly⟩ := by
  rcases q with _ | (_ | ⟨c, cs⟩)
  · rfl
  · rfl
  · simp [isFalsyQuote] at hq

/-- Witness for the amended C5: hint 3 on `exDoc`, empty quote. -/
theorem c5_witness :
    jumpTo exDoc (some 3) (some []) =
      ⟨exDoc, if hostAt exDoc 1 then some 1 else none, Outcome.navOnly⟩ :=
  c5_nav_only_amended exDoc (some 3) (some []) (by decide)

/-- Claim C6: when a non-empty quote matches on no page, `jumpTo` leaves every
fragment of every page unhighlighted (stale highlights included), reports the
not-found outcome instead of raising, and scrolls to page 1. -/
theorem c6_not_found_clears (doc : List PageState) (t : Option Nat) (q : Str)
    (hq : q ≠ []) (hnm : firstMatch doc q = none) :
    docClean (jumpTo doc t (some q)).doc = true ∧
    (jumpTo doc t (some q)).outcome = Outcome.notFound ∧
    (jumpTo doc t (some q)).scroll = (if hostAt doc 1 then some 1 else none) := by
  obtain ⟨c, cs, rfl⟩ := List.exists_cons_of_ne_nil hq
  have hgo := jumpToGo_clean doc (c :: cs) 1 hnm
  simp only [jumpTo]
  rw [show (jumpToGo doc (c :: cs) 1).2 = firstMatchGo doc (c :: cs) 1 from
    jumpToGo_snd doc (c :: cs) 1, show firstMatchGo doc (c :: cs) 1 =
    firstMatch doc (c :: cs) from rfl, hnm]
  exact ⟨hgo.1, rfl, by rw [hostAt_jumpToGo]⟩

/-- Witness for C6: the quote `nonexistent clause xyz123` matches nowhere in
`exDoc`; the stale highlight on page 5 is cleared, outcome is not-found,
scroll goes to page 1. -/
theorem c6_witness :
    docClean (jumpTo exDoc none (some exMissQuote)).doc = true ∧
    (jumpTo exDoc none (some exMissQuote)).outcome = Outcome.notFound ∧
    (jumpTo exDoc none (some exMissQuote)).scroll =
      (if hostAt exDoc 1 then some 1 else none) :=
  c6_not_found_clears exDoc none exMissQuote (by decide) (by decide)

/-- Claim C7 counterexample: the page `longTexts` does not contain the full
normalized quote `longQuote` but does contain its first-50% prefix, yet the
match fails outright (no tier at all), because the 15-character gate runs
before any ratio tier and rejects the page. -/
theorem c7_counterexample :
    containsStr (normalizeText (joinSp longTexts)) (normalizeText longQuote) = false ∧
    containsStr (normalizeText (joinSp longTexts))
      ((normalizeText longQuote).take (tierLen .r50 (normalizeText longQuote).length)) = true ∧
    (highlightQuoteCore longTexts longQuote).2.1 = false ∧
    (highlightQuoteCore longTexts longQuote).2.2 = none := by
  decide

/-- Claim C7 as amended: provided the 15-character gate passes, the ratio loop
tries the 100%, 75% and 50% prefixes of the normalized quote against the
combined normalized text and stops at the first hit: a contained full quote
yields the full tier, else a contained 75% prefix yields the 75% tier, else a
contained 50% prefix yields the 50% tier rather than failing. -/
theorem c7_ratio_tiers_amended (texts : List Str) (q : Str)
    (hne : texts.isEmpty = false)
    (hg : containsStr (joinSp (texts.map normalizeText))
      ((normalizeText q).take (min 15 (normalizeText q).length)) = true) :
    (containsStr (normalizeText (joinSp texts)) (normalizeText q) = true →
      (highlightQuoteCore texts q).2.2 = some .full) ∧
    (containsStr (normalizeText (joinSp texts)) (normalizeText q) = false →
      containsStr (normalizeText (joinSp texts))
        ((normalizeText q).take (tierLen .r75 (normalizeText q).length)) = true →
      (highlightQuoteCore texts q).2.2 = some .r75) ∧
    (containsStr (normalizeText (joinSp texts)) (normalizeText q) = false →
      containsStr (normalizeText (joinSp texts))
        ((normalizeText q).take (tierLen .r75 (normalizeText q).length)) = false →
      containsStr (normalizeText (joinSp texts))
        ((normalizeText q).take (tierLen .r50 (normalizeText q).length)) = true →
      (highlightQuoteCore texts q).2.2 = some .r50) :=
  ⟨fun h100 => core_tier_full texts q hne hg h100,
   fun h100 h75 => core_tier_r75 texts q hne hg h100 h75,
   fun h100 h75 h50 => core_tier_r50 texts q hne hg h100 h75 h50⟩

/-- Witness for the amended C7: on `gateTexts` with `ratioQuote` the gate
passes, the full and 75% prefixes are absent, the 50% prefix is present, and
the match lands on the Ratio50 tier. -/
theorem c7_witness :
    (highlightQuoteCore gateTexts ratioQuote).2.2 = some RatioTier.r50 :=
  (c7_ratio_tiers_amended gateTexts ratioQuote (by decide) (by decide)).2.2
    (by decide) (by decide) (by decide)

/-- Claim C8: the marking loop marks exactly the fragments whose character
spans `[spanStart i, spanStart i + len + 1)` overlap the match range
`[matchIndex, matchEnd)`, where the offsets are cumulative with each fragment
contributing its (normalized) text length plus one join space; the marked set
is contiguous. -/
theorem c8_fragment_mapping (norms : List Str) (mi me : Nat) :
    markRow norms mi me = (List.range norms.length).map
      (fun i => decide (spanStart norms i < me ∧ mi < spanStart norms (i + 1))) ∧
    (∀ i, i < norms.length →
      spanStart norms (i + 1) = spanStart norms i + (norms.getD i []).length + 1) ∧
    (∀ i j k, i ≤ j → j ≤ k →
      (markRow norms mi me).getD i false = true →
      (markRow norms mi me).getD k false = true →
      (markRow norms mi me).getD j false = true) := by
  refine ⟨markRow_eq norms mi me, spanStart_succ_getD norms, ?_⟩
  intro i j k hij hjk hi hk
  have hkl : k < norms.length := by
    by_contra hcon
    rw [markRow_getD, if_neg hcon] at hk
    exact absurd hk (by simp)
  have hil : i < norms.length := by omega
  have hjl : j < norms.length := by omega
  rw [markRow_getD, if_pos hil, decide_eq_true_eq] at hi
  rw [markRow_getD, if_pos hkl, decide_eq_true_eq] at hk
  rw [markRow_getD, if_pos hjl, decide_eq_true_eq]
  exact ⟨lt_of_le_of_lt (spanStart_mono norms j k hjk) hk.1,
    lt_of_lt_of_le hi.2 (spanStart_mono norms (i + 1) (j + 1) (by omega))⟩

/-- Witness for C8: with fragment texts of lengths 2, 3, 2 and match range
`[0, 8)`, the middle fragment is marked (as are its neighbours). -/
theorem c8_witness :
    (markRow ["ab".toList, "cde".toList, "fg".toList] 0 8).getD 1 false = true :=
  (c8_fragment_mapping ["ab".toList, "cde".toList, "fg".toList] 0 8).2.2 0 1 2
    (by decide) (by decide) (by decide) (by decide)

/-- Claim C9: extraction is attempted at most twice per render (one retry);
when both attempts fail the cache entry is unchanged, so `getPageTexts`
reports the empty string for that page; and a page whose joined span text is
empty after trimming can never satisfy `highlightQuote` for any quote, so it
stays excluded from matching. -/
theorem c9_retry_bound (st0 st1 : PageState) (prior : Option Str) (n p : Nat)
    (cache : Nat → Option Str)
    (hp1 : 1 ≤ p) (hpn : p ≤ n) (hc : cache p = none) :
    (onPageRender st0 st1 prior).attempts ≤ 2 ∧
    (tryExtract st0 = none → tryExtract st1 = none →
      (onPageRender st0 st1 prior).cache = prior) ∧
    (p, ([] : Str)) ∈ getPageTexts n cache ∧
    (∀ spans : List Frag, ∀ q : Str, tryExtract (.layer spans) = none →
      (highlightQuote (.layer spans) q).2.1 = false) := by
  refine ⟨?_, ?_, ?_, ?_⟩
  · unfold onPageRender
    cases tryExtract st0
    · cases tryExtract st1
      · exact Nat.le_refl 2
      · exact Nat.le_refl 2
    · exact by norm_num
  · intro h0 h1
    unfold onPageRender
    rw [h0, h1]
  · unfold getPageTexts
    refine List.mem_map.2 ⟨p - 1, List.mem_range.2 (by omega), ?_⟩
    rw [show p - 1 + 1 = p by omega, hc]
    rfl
  · intro spans q hx
    exact highlightQuote_allspace spans q hx

/-- Witness for C9: a page holding a single all-whitespace span never
extracts; two failed attempts leave an absent cache entry, `getPageTexts`
reports the empty string for page 2 of 3, and no quote can match the page. -/
theorem c9_witness :
    (onPageRender blankPage blankPage none).attempts ≤ 2 ∧
    (onPageRender blankPage blankPage none).cache = none ∧
    (2, ([] : Str)) ∈ getPageTexts 3 (fun _ => none) ∧
    (highlightQuote (.layer [⟨[' '], false⟩]) exQuote).2.1 = false := by
  have h := c9_retry_bound blankPage blankPage none 3 2 (fun _ => none)
    (by decide) (by decide) rfl
  exact ⟨h.1, h.2.1 (by decide) (by decide), h.2.2.1, h.2.2.2 [⟨[' '], false⟩] exQuote (by decide)⟩

/-- Claim C10: a page is rejected before any ratio tier is attempted unless
the join of its per-span normalized texts contains the first
`min(15, |normalized quote|)` characters of the normalized quote; that gate
string can differ from the string the ratio search runs over (the
normalization of the joined raw texts), and on `gateTexts` with
`mismatchQuote` the 50% prefix is present in the ratio-search string while the
gate rejects the page, so it is never matched. -/
theorem c10_gate_mismatch :
    (∀ texts : List Str, ∀ q : Str, texts.isEmpty = false →
      containsStr (joinSp (texts.map normalizeText))
        ((normalizeText q).take (min 15 (normalizeText q).length)) = false →
      highlightQuoteCore texts q = (texts.map (fun _ => false), false, none)) ∧
    joinSp (gateTexts.map normalizeText) ≠ normalizeText (joinSp gateTexts) ∧
    containsStr (normalizeText (joinSp gateTexts))
      ((normalizeText mismatchQuote).take
        (tierLen .r50 (normalizeText mismatchQuote).length)) = true ∧
    containsStr (joinSp (gateTexts.map normalizeText))
      ((normalizeText mismatchQuote).take
        (min 15 (normalizeText mismatchQuote).length)) = false ∧
    highlightQuoteCore gateTexts mismatchQuote =
      (gateTexts.map (fun _ => false), false, none) :=
  ⟨core_gate_reject, by decide, by decide, by decide, by decide⟩

/-- Witness for C10: the gate-rejection law applied to the concrete mismatch
page and quote. -/
theorem c10_witness :
    highlightQuoteCore gateTexts mismatchQuote =
      (gateTexts.map (fun _ => false), false, none) :=
  c10_gate_mismatch.1 gateTexts mismatchQuote (by decide) (by decide)

end DocChat
